import Mathlib

/-!
Verification of the stacked-graph layout engine (StackedGraph).

The development shallowly embeds the layout/animation core of the source:
the centered-difference differentiator, the four baseline functions
(zeroBase, themeRiver, wiggle, weightedWiggle), the stacking/normalizing
pipeline of updateDrawing, the padding and interpolation of _animatedUpdate,
and the data-property setter with its validator.

Numbers are modelled as exact rationals.  JavaScript's idiom v || 0 flushes
NaN (and 0) to 0; in every reachable state of the embedded pipeline the
divisions guarded this way have a zero numerator whenever the denominator is
zero, so Lean's convention q / 0 = 0 on the rationals coincides with the
source's guarded result, as noted at each use.  The one division the source
does not guard, weightedWiggle's division by the per-sample stack height,
is embedded over the type JSNum, which tracks NaN and the infinities
explicitly.  Non-numeric data entries are modelled by the type JSVal.
-/

namespace StackedGraph

/-- Embedding of the JavaScript idiom arr.map((x, i) => f(i, x)): the map
with index over a list, reading the element at each index (with a default
that is unreachable for indices below the length). -/
def idxMap {α : Type} {β : Type} (d : α) (l : List α) (f : ℕ → α → β) : List β :=
  (List.range l.length).map (fun i => f i (l.getD i d))

/-- Embedding of a.map((val, i) => val + b[i]): pointwise addition shaped by
the first operand, as performed by the reduce callbacks in the source. -/
def addRow (a b : List ℚ) : List ℚ :=
  idxMap 0 a (fun i x => x + b.getD i 0)

/-- Embedding of rows.reduce((a, b) => a.map((val, i) => val + b[i])): the
pointwise sum of a list of rows.  The JavaScript reduce throws on an empty
list; that case is unreachable in the states the theorems quantify over and
is mapped to the empty row. -/
def sumRows : List (List ℚ) → List ℚ
  | [] => []
  | r :: rs => rs.foldl addRow r

/-- Embedding of arr.reduce((a, b) => a + b) on numbers.  The empty case
throws in JavaScript and is unreachable in the quantified states; it is
mapped to 0. -/
def reduceAdd : List ℚ → ℚ
  | [] => 0
  | x :: xs => xs.foldl (· + ·) x

/-- Embedding of Math.max.apply(this, arr).  Math.max() of no arguments is
-Infinity; the empty case is unreachable here and mapped to 0. -/
def jsMax : List ℚ → ℚ
  | [] => 0
  | x :: xs => xs.foldl max x

/-- Embedding of Math.min.apply(this, arr), as for jsMax. -/
def jsMin : List ℚ → ℚ
  | [] => 0
  | x :: xs => xs.foldl min x

/-- Embedding of the body of _updateDiff for one series: all zeros for
length at most 1, otherwise the one-sided difference at the two endpoints
and the centered difference (arr[i+1] - arr[i-1])/2 in the interior. -/
def diffOne (arr : List ℚ) : List ℚ :=
  if arr.length ≤ 1 then arr.map (fun _ => 0)
  else
    (List.range arr.length).map (fun i =>
      if i = 0 then arr.getD 1 0 - arr.getD 0 0
      else if i = arr.length - 1 then
        arr.getD (arr.length - 1) 0 - arr.getD (arr.length - 2) 0
      else (arr.getD (i + 1) 0 - arr.getD (i - 1) 0) / 2)

/-- Embedding of _updateDiff: the centered-difference derivative of every
band of the dataset. -/
def updateDiff (data : List (List ℚ)) : List (List ℚ) :=
  data.map diffOne

/-- Embedding of the first two steps of updateDrawing: copy the data and
unshift the baseline row new Array(dataDimension).fill(null).map((val, i) =>
baseline(i)), where dataDimension is _data[0] ? _data[0].length : 0. -/
def withBase (data : List (List ℚ)) (bf : ℕ → ℚ) : List (List ℚ) :=
  ((List.range (data.headD []).length).map bf) :: data

/-- Embedding of the accumulation loop of updateDrawing after the first row:
each row is replaced by dest[i].map((x, j) => x + dest[i-1][j]) using the
already-accumulated previous row. -/
def accRows (prev : List ℚ) : List (List ℚ) → List (List ℚ)
  | [] => []
  | r :: rs => addRow r prev :: accRows (addRow r prev) rs

/-- Embedding of the accumulation loop of updateDrawing: row 0 is kept and
every later row becomes the pointwise sum of itself with the accumulated
row before it. -/
def accumulate : List (List ℚ) → List (List ℚ)
  | [] => []
  | r :: rs => r :: accRows r rs

/-- Embedding of Math.max.apply(this, dest.map(arr => Math.max.apply(this,
arr))): the global maximum over every value of every row. -/
def globalMax (rows : List (List ℚ)) : ℚ :=
  jsMax (rows.map jsMax)

/-- Embedding of the corresponding global minimum. -/
def globalMin (rows : List (List ℚ)) : ℚ :=
  jsMin (rows.map jsMin)

/-- Embedding of the normalizing step of updateDrawing:
dest.map(arr => arr.map((x, i, arr) => [i/(arr.length-1) || 0,
(x - min)/(max - min) || 0])).  In every reachable state the numerator is 0
whenever the denominator is 0 (the x ratio: i = 0 when the row has length 1;
the y ratio: x = min when max = min), so rational division, which yields 0
on a zero denominator, agrees with the JavaScript guarded result. -/
def normalizeRows (rows : List (List ℚ)) : List (List (ℚ × ℚ)) :=
  let mx := globalMax rows
  let mn := globalMin rows
  rows.map (fun arr =>
    idxMap 0 arr (fun i x =>
      ((i : ℚ) / ((arr.length : ℚ) - 1), (x - mn) / (mx - mn))))

/-- Embedding of the destination coordinate set built by updateDrawing from
a dataset and a baseline function: unshift the baseline row, accumulate,
normalize.  The non-animated path assigns exactly this value to
_dataToDraw. -/
def updateDest (data : List (List ℚ)) (bf : ℕ → ℚ) : List (List (ℚ × ℚ)) :=
  normalizeRows (accumulate (withBase data bf))

/-- Embedding of the themeRiver baseline at one index:
-0.5 * this._data.map(arr => arr[index]).reduce((a, b) => a + b). -/
def themeRiverAt (data : List (List ℚ)) (index : ℕ) : ℚ :=
  -(1/2) * reduceAdd (data.map (fun arr => arr.getD index 0))

/-- Embedding of the cached vector wiggle.dg0: the derivative rows scaled by
-val * (_dataDiff.length - i) and summed pointwise across bands. -/
def wiggleDg0 (dataDiff : List (List ℚ)) : List ℚ :=
  sumRows (idxMap [] dataDiff (fun i arr =>
    arr.map (fun v => -v * ((dataDiff.length - i : ℕ) : ℚ))))

/-- Embedding of the wiggle baseline at one index: the prefix sum
dg0.slice(0, index + 1).reduce((a, b) => a + b) divided by
(this._data.length + 1) || 1.  Since _data.length + 1 is at least 1 the
|| 1 guard is inert and the divisor is exactly bandCount + 1. -/
def wiggle (data dataDiff : List (List ℚ)) (index : ℕ) : ℚ :=
  reduceAdd ((wiggleDg0 dataDiff).take (index + 1)) / ((data.length : ℚ) + 1)

/-- Modelled from the spec wording of the wiggle baseline, for comparison
with the source embedding: dg0[band][sample] = -derivative * (bandCount -
band), summed across bands into a per-sample vector, divided per sample by
(bandCount + 1); the baseline is the running sum of that vector through the
sample index. -/
def wiggleSpec (data : List (List ℚ)) (index : ℕ) : ℚ :=
  ((List.range (index + 1)).map (fun s =>
    (((List.range data.length).map (fun b =>
      -(((updateDiff data).getD b []).getD s 0) *
        ((data.length - b : ℕ) : ℚ))).sum) / ((data.length : ℚ) + 1))).sum

/-- A JavaScript number restricted to the values the weightedWiggle
computation can produce: an exact finite rational, NaN, or an infinity.
Negative zero is not modelled (no reachable computation here distinguishes
it), and finite arithmetic is exact rather than rounded. -/
inductive JSNum where
  | fin : ℚ → JSNum
  | nan : JSNum
  | inf : JSNum
  | ninf : JSNum
deriving DecidableEq

/-- IEEE-style addition on JSNum. -/
def JSNum.add : JSNum → JSNum → JSNum
  | fin a, fin b => fin (a + b)
  | nan, _ => nan
  | _, nan => nan
  | inf, ninf => nan
  | ninf, inf => nan
  | inf, _ => inf
  | _, inf => inf
  | ninf, _ => ninf
  | _, ninf => ninf

/-- IEEE-style negation on JSNum. -/
def JSNum.neg : JSNum → JSNum
  | fin a => fin (-a)
  | nan => nan
  | inf => ninf
  | ninf => inf

/-- IEEE-style subtraction on JSNum. -/
def JSNum.sub (a b : JSNum) : JSNum := a.add b.neg

/-- Halving on JSNum, for the centered difference (a - b) / 2. -/
def JSNum.half : JSNum → JSNum
  | fin a => fin (a / 2)
  | nan => nan
  | inf => inf
  | ninf => ninf

/-- Whether a JSNum is a finite number (not NaN, not an infinity). -/
def JSNum.isFinite : JSNum → Bool
  | fin _ => true
  | _ => false

/-- JavaScript division of two finite numbers (zero taken as +0): a genuine
quotient when the denominator is nonzero, otherwise NaN for 0/0 and a
signed infinity for a nonzero numerator. -/
def jsDiv (a b : ℚ) : JSNum :=
  if b ≠ 0 then .fin (a / b)
  else if a = 0 then .nan
  else if 0 < a then .inf
  else .ninf

/-- Embedding of arr.reduce((a, b) => a + b) over JSNum values, as used on
the weightedWiggle prefix of dg0.  The empty case throws in JavaScript and
is unreachable under the theorems' hypotheses; it is mapped to NaN. -/
def jsReduceAdd : List JSNum → JSNum
  | [] => .nan
  | x :: xs => xs.foldl JSNum.add x

/-- Embedding of the cached vector weightedWiggle.dg0 from the source:
sfi is the per-sample stack height, each band i contributes
(sdfj - dfi/2) * fi pointwise where sdfj is the pointwise sum of the first
i + 1 derivative rows, the contributions are summed across bands, and the
result is mapped through -val / sfi[i].  The source performs this division
without any zero guard, which is why the result lives in JSNum: every
earlier operation stays finite on finite data, and only this division can
produce NaN or an infinity. -/
def weightedWiggleDg0 (data dataDiff : List (List ℚ)) : List JSNum :=
  let sfi := sumRows data
  let summed := sumRows (idxMap [] dataDiff (fun i dfi =>
    let sdfj := sumRows (dataDiff.take (i + 1))
    let fi := data.getD i []
    idxMap 0 sdfj (fun j v => (v - dfi.getD j 0 / 2) * fi.getD j 0)))
  idxMap 0 summed (fun i v => jsDiv (-v) (sfi.getD i 0))

/-- Embedding of the weightedWiggle baseline at one index: the prefix sum
dg0.slice(0, index + 1).reduce((a, b) => a + b). -/
def weightedWiggle (data dataDiff : List (List ℚ)) (index : ℕ) : JSNum :=
  jsReduceAdd ((weightedWiggleDg0 data dataDiff).take (index + 1))

/-- The same weightedWiggle.dg0 computation with rational division (which
yields 0 on a zero denominator instead of NaN or an infinity).  It is used
in the drawing-pipeline determinism model, where only the fact that the
cached vector is a function of the dataset matters; weightedWiggleDg0 is
the faithful embedding for finiteness analysis. -/
def weightedWiggleDg0Q (data dataDiff : List (List ℚ)) : List ℚ :=
  let sfi := sumRows data
  let summed := sumRows (idxMap [] dataDiff (fun i dfi =>
    let sdfj := sumRows (dataDiff.take (i + 1))
    let fi := data.getD i []
    idxMap 0 sdfj (fun j v => (v - dfi.getD j 0 / 2) * fi.getD j 0)))
  idxMap 0 summed (fun i v => -v / sfi.getD i 0)

/-- A coordinate of the renderable set: x and y in the unit square. -/
def Coord : Type := ℚ × ℚ

instance : DecidableEq Coord := by
  unfold Coord
  infer_instance

/-- Embedding of the boundary-count padding step of _animatedUpdate: one
unshift of a copy of the current first boundary, (this._dataToDraw[0] ||
[]).slice(). -/
def dupFirst (cs : List (List Coord)) : List (List Coord) :=
  cs.headD [] :: cs

/-- The unshift loop of _animatedUpdate, run n times (a negative JavaScript
count runs the loop zero times, matching truncated subtraction at the call
site). -/
def unshiftLoop (cs : List (List Coord)) : ℕ → List (List Coord)
  | 0 => cs
  | n + 1 => unshiftLoop (dupFirst cs) n

/-- Embedding of one sample-count padding step: push a copy of the current
last coordinate, (arr[arr.length - 1] || [0, 0.5]).slice(). -/
def pushLast (arr : List Coord) : List Coord :=
  arr ++ [arr.getLastD ((0 : ℚ), (1 / 2 : ℚ))]

/-- The push loop of _animatedUpdate, run n times per boundary. -/
def pushLoop (arr : List Coord) : ℕ → List Coord
  | 0 => arr
  | n + 1 => pushLoop (pushLast arr) n

/-- Embedding of the whole padding phase at the start of an animated
update: grow the boundary count at the front by duplicating the first
boundary, then pad every boundary to the destination's sample count
(taken from destination[0]) by repeating its last coordinate. -/
def padFromData (fromData dest : List (List Coord)) : List (List Coord) :=
  let grown := unshiftLoop fromData (dest.length - fromData.length)
  let srcDim := (grown.headD []).length
  let dstDim := (dest.headD []).length
  grown.map (fun arr => pushLoop arr (dstDim - srcDim))

/-- Embedding of the eased progress of _animatedUpdate:
progress = (now - start) / timing || 0 followed by the quadratic ease-out
1 - (1 - progress)^2.  When timing = 0 and elapsed is positive the
JavaScript ratio is Infinity; in that state the tick's snap branch
overwrites the interpolated value, so the rational convention 0 for that
ratio never reaches an observable result. -/
def easedProgress (timing elapsed : ℚ) : ℚ :=
  1 - (1 - elapsed / timing) * (1 - elapsed / timing)

/-- Embedding of the interpolation body of one tick over the padded
fromData: toward the shrink-to-origin point when the destination is empty,
otherwise a linear blend with the destination coordinate at the clamped
boundary and sample index (the sample count m is read from
destination[0]). -/
def tickData (fromData dest : List (List Coord)) (p : ℚ) : List (List Coord) :=
  idxMap [] fromData (fun index arr =>
    if dest.length = 0 then
      arr.map (fun c => (c.1 * (1 - p), c.2 * (1 - p)))
    else
      let i := if index < dest.length then index else dest.length - 1
      let m := (dest.headD []).length
      idxMap ((0 : ℚ), (0 : ℚ)) arr (fun j c =>
        let row := dest.getD i []
        let dc := if j < m then row.getD j ((0 : ℚ), (0 : ℚ))
                  else row.getD (m - 1) ((0 : ℚ), (0 : ℚ))
        (c.1 * (1 - p) + dc.1 * p, c.2 * (1 - p) + dc.2 * p)))

/-- Embedding of one animation tick after the start phase: the displayed
coordinate set it leaves behind and whether it schedules another tick.
While elapsed <= timing the interpolated set is displayed and a new tick is
scheduled; otherwise the displayed set becomes an exact deep copy of the
destination (value-identical here) and no tick is scheduled. -/
def tick (fromData dest : List (List Coord)) (timing elapsed : ℚ) :
    List (List Coord) × Bool :=
  let updated := tickData fromData dest (easedProgress timing elapsed)
  if elapsed ≤ timing then (updated, true) else (dest, false)

/-- A JavaScript value stored in a candidate dataset entry: either a number
(typeof val === 'number') or a non-numeric value such as a string, tagged
so that distinct non-numeric entries stay distinct. -/
inductive JSVal where
  | num : ℚ → JSVal
  | nonnum : ℕ → JSVal
deriving DecidableEq

/-- ToNumber coercion applied by arithmetic on a dataset entry: a number is
itself, a non-numeric entry (as modelled here, e.g. a plain word string)
coerces to NaN. -/
def toJSNum : JSVal → JSNum
  | .num q => .fin q
  | .nonnum _ => .nan

/-- The validator's indicator typeof val === 'number' ? 1 : 0. -/
def numInd : JSVal → ℕ
  | .num _ => 1
  | .nonnum _ => 0

/-- Embedding of arr.reduce((a, b) => a + b) on natural numbers: none on
the empty list, where JavaScript throws a TypeError (reduce of empty array
with no initial value). -/
def jsReduceNat : List ℕ → Option ℕ
  | [] => none
  | x :: xs => some (xs.foldl (· + ·) x)

/-- The count of numeric entries of one series, as the validator computes
it (arr.map(indicator).reduce(add)); none when the series is empty and the
reduce throws. -/
def numericCount (arr : List JSVal) : Option ℕ :=
  jsReduceNat (arr.map numInd)

/-- The total count of numeric entries of one series, used to state
hypotheses; it agrees with numericCount on nonempty series. -/
def numCountD (arr : List JSVal) : ℕ :=
  (arr.map numInd).sum

/-- Whether every consecutive pair of validator entries (numeric count,
length) agrees; the setter's loop warns and returns at the first
disagreeing pair. -/
def allConsecEq : List (ℕ × ℕ) → Bool
  | [] => true
  | [_] => true
  | a :: b :: rest => a = b && allConsecEq (b :: rest)

/-- Embedding of the body of _updateDiff for one series of raw dataset
entries: each subtraction coerces its operands with ToNumber, so the
computation runs over JSNum. -/
def diffOneJS (arr : List JSNum) : List JSNum :=
  if arr.length ≤ 1 then arr.map (fun _ => JSNum.fin 0)
  else
    (List.range arr.length).map (fun i =>
      if i = 0 then (arr.getD 1 .nan).sub (arr.getD 0 .nan)
      else if i = arr.length - 1 then
        (arr.getD (arr.length - 1) .nan).sub (arr.getD (arr.length - 2) .nan)
      else ((arr.getD (i + 1) .nan).sub (arr.getD (i - 1) .nan)).half)

/-- Embedding of _updateDiff on a committed dataset of raw entries. -/
def updateDiffJS (rows : List (List JSVal)) : List (List JSNum) :=
  rows.map (fun arr => diffOneJS (arr.map toJSNum))

/-- The mutable state the data setter reads and writes: the stored dataset,
its derivative set, and the displayed coordinate set. -/
structure SetterState where
  data : List (List JSVal)
  dataDiff : List (List JSNum)
  dataToDraw : List (List (ℚ × ℚ))
deriving DecidableEq

/-- The outcome of one assignment to the data property: the state it leaves
behind, whether console.warn ran, whether updateDrawing(true, timing) was
invoked, and whether the validator threw a TypeError out of the setter. -/
structure SetterResult where
  state : SetterState
  warned : Bool
  updateTriggered : Bool
  threw : Bool
deriving DecidableEq

/-- Embedding of the data setter of publicStackedGraph: an empty assignment
is replaced by the default dataset [[0, 0]]; the validator maps every
series to (numeric count, length), throwing on an empty series; any
disagreeing consecutive pair warns and leaves the state untouched;
otherwise the dataset is committed, the derivative set recomputed, and an
animated update triggered (the displayed set is then mutated by the
animation, not by the setter itself). -/
def setData (st : SetterState) (newVal : List (List JSVal)) : SetterResult :=
  let nv := if newVal.length = 0 then [[JSVal.num 0, JSVal.num 0]] else newVal
  match nv.mapM (fun arr => (numericCount arr).map (fun c => (c, arr.length))) with
  | none => { state := st, warned := false, updateTriggered := false, threw := true }
  | some validator =>
    if allConsecEq validator then
      { state := { data := nv, dataDiff := updateDiffJS nv,
                   dataToDraw := st.dataToDraw },
        warned := false, updateTriggered := true, threw := false }
    else
      { state := st, warned := true, updateTriggered := false, threw := false }

/-- The memoized per-instance state the baseline functions read and write:
_dataDiff together with the dataset key and cached dg0 vector of wiggle and
of weightedWiggle (the "static variables stored on the function object"). -/
structure GraphCache where
  dataDiff : List (List ℚ)
  wiggleData : Option (List (List ℚ))
  wiggleDg0 : List ℚ
  wwData : Option (List (List ℚ))
  wwDg0 : List ℚ
deriving DecidableEq

/-- Embedding of if(!(this._dataDiff || []).length) this._updateDiff(). -/
def ensureDiff (data : List (List ℚ)) (c : GraphCache) : GraphCache :=
  if c.dataDiff.length = 0 then { c with dataDiff := updateDiff data } else c

/-- Embedding of the memoization prologue of wiggle: refresh _dataDiff if
empty, then recompute and re-key dg0 unless the cached key is the current
dataset.  Keys are compared by value here; reference identity in the source
implies value identity, and a by-value hit reuses a dg0 computed from an
equal dataset. -/
def ensureWiggle (data : List (List ℚ)) (c : GraphCache) : GraphCache :=
  if (ensureDiff data c).wiggleData = some data then ensureDiff data c
  else { (ensureDiff data c) with
         wiggleData := some data
         wiggleDg0 := wiggleDg0 (ensureDiff data c).dataDiff }

/-- Embedding of the memoization prologue of weightedWiggle, as for
ensureWiggle. -/
def ensureWW (data : List (List ℚ)) (c : GraphCache) : GraphCache :=
  if (ensureDiff data c).wwData = some data then ensureDiff data c
  else { (ensureDiff data c) with
         wwData := some data
         wwDg0 := weightedWiggleDg0Q data (ensureDiff data c).dataDiff }

/-- The four baseline modes selectable through the baseline property. -/
inductive BaselineMode where
  | zeroBase
  | themeRiverMode
  | wiggleMode
  | weightedMode
deriving DecidableEq

/-- The per-index value the selected baseline function returns once the
cache has settled (every call within one updateDrawing pass observes the
same settled cache, since the first call performs any refresh). -/
def baselineAt (mode : BaselineMode) (data : List (List ℚ)) (c : GraphCache) :
    ℕ → ℚ :=
  match mode with
  | .zeroBase => fun _ => 0
  | .themeRiverMode => fun i => themeRiverAt data i
  | .wiggleMode => fun i =>
      reduceAdd ((ensureWiggle data c).wiggleDg0.take (i + 1)) /
        ((data.length : ℚ) + 1)
  | .weightedMode => fun i =>
      reduceAdd ((ensureWW data c).wwDg0.take (i + 1))

/-- The cache state left behind by one updateDrawing pass that invoked the
selected baseline at least once. -/
def stepCache (mode : BaselineMode) (data : List (List ℚ)) (c : GraphCache) :
    GraphCache :=
  match mode with
  | .wiggleMode => ensureWiggle data c
  | .weightedMode => ensureWW data c
  | _ => c

/-- Embedding of one non-animated updateDrawing pass: the coordinate set it
assigns to _dataToDraw and the cache state it leaves.  When the dataset
dimension is 0 the baseline row is empty, the baseline function is never
invoked and the cache is untouched. -/
def updateDrawingOnce (mode : BaselineMode) (data : List (List ℚ))
    (c : GraphCache) : List (List (ℚ × ℚ)) × GraphCache :=
  if (data.headD []).length = 0 then (updateDest data (fun _ => 0), c)
  else (updateDest data (baselineAt mode data c), stepCache mode data c)

theorem idxMap_length {α β : Type} (d : α) (l : List α) (f : ℕ → α → β) :
    (idxMap d l f).length = l.length := by
  simp [idxMap]

theorem idxMap_getD {α β : Type} (d : α) (l : List α) (f : ℕ → α → β)
    (i : ℕ) (h : i < l.length) (d' : β) :
    (idxMap d l f).getD i d' = f i (l.getD i d) := by
  simp only [idxMap, List.getD_eq_getElem?_getD, List.getElem?_map,
    List.getElem?_range h, Option.map_some', Option.getD_some]

theorem mem_idxMap {α β : Type} {d : α} {l : List α} {f : ℕ → α → β} {b : β}
    (h : b ∈ idxMap d l f) : ∃ i, i < l.length ∧ b = f i (l.getD i d) := by
  simp only [idxMap, List.mem_map, List.mem_range] at h
  obtain ⟨i, hi, hb⟩ := h
  exact ⟨i, hi, hb.symm⟩

theorem getD_eq_of_lt {α : Type} (l : List α) (i : ℕ) (d d' : α)
    (h : i < l.length) : l.getD i d = l.getD i d' := by
  simp [List.getD_eq_getElem?_getD, List.getElem?_eq_getElem h]

theorem getD_mem_of_lt {α : Type} (l : List α) (i : ℕ) (d : α)
    (h : i < l.length) : l.getD i d ∈ l := by
  rw [List.getD_eq_getElem?_getD, List.getElem?_eq_getElem h]
  exact List.getElem_mem h

theorem le_foldl_max_self (l : List ℚ) (a : ℚ) : a ≤ l.foldl max a := by
  induction l generalizing a with
  | nil => exact le_refl a
  | cons x xs ih => exact (le_max_left a x).trans (ih (max a x))

theorem foldl_min_le_self (l : List ℚ) (a : ℚ) : l.foldl min a ≤ a := by
  induction l generalizing a with
  | nil => exact le_refl a
  | cons x xs ih => exact (ih (min a x)).trans (min_le_left a x)

theorem le_foldl_max (l : List ℚ) (a b : ℚ) (h : b = a ∨ b ∈ l) :
    b ≤ l.foldl max a := by
  induction l generalizing a with
  | nil =>
    rcases h with h | h
    · exact le_of_eq h
    · cases h
  | cons x xs ih =>
    have hmax : max a x ≤ xs.foldl max (max a x) := le_foldl_max_self xs _
    rcases h with h | h
    · calc b = a := h
        _ ≤ max a x := le_max_left a x
        _ ≤ _ := hmax
    · rcases List.mem_cons.mp h with h | h
      · calc b = x := h
          _ ≤ max a x := le_max_right a x
          _ ≤ _ := hmax
      · exact ih (max a x) (Or.inr h)

theorem foldl_min_le (l : List ℚ) (a b : ℚ) (h : b = a ∨ b ∈ l) :
    l.foldl min a ≤ b := by
  induction l generalizing a with
  | nil =>
    rcases h with h | h
    · exact le_of_eq h.symm
    · cases h
  | cons x xs ih =>
    have hmin : xs.foldl min (min a x) ≤ min a x := foldl_min_le_self xs _
    rcases h with h | h
    · calc xs.foldl min (min a x) ≤ min a x := hmin
        _ ≤ a := min_le_left a x
        _ = b := h.symm
    · rcases List.mem_cons.mp h with h | h
      · calc xs.foldl min (min a x) ≤ min a x := hmin
          _ ≤ x := min_le_right a x
          _ = b := h.symm
      · exact ih (min a x) (Or.inr h)

theorem le_jsMax (l : List ℚ) (b : ℚ) (h : b ∈ l) : b ≤ jsMax l := by
  cases l with
  | nil => cases h
  | cons x xs =>
    rcases List.mem_cons.mp h with h | h
    · exact le_foldl_max xs x b (Or.inl h)
    · exact le_foldl_max xs x b (Or.inr h)

theorem jsMin_le (l : List ℚ) (b : ℚ) (h : b ∈ l) : jsMin l ≤ b := by
  cases l with
  | nil => cases h
  | cons x xs =>
    rcases List.mem_cons.mp h with h | h
    · exact foldl_min_le xs x b (Or.inl h)
    · exact foldl_min_le xs x b (Or.inr h)

theorem le_globalMax (rows : List (List ℚ)) (arr : List ℚ) (v : ℚ)
    (harr : arr ∈ rows) (hv : v ∈ arr) : v ≤ globalMax rows := by
  have h1 : v ≤ jsMax arr := le_jsMax arr v hv
  have h2 : jsMax arr ≤ globalMax rows :=
    le_jsMax (rows.map jsMax) (jsMax arr) (List.mem_map_of_mem jsMax harr)
  exact h1.trans h2

theorem globalMin_le (rows : List (List ℚ)) (arr : List ℚ) (v : ℚ)
    (harr : arr ∈ rows) (hv : v ∈ arr) : globalMin rows ≤ v := by
  have h1 : jsMin arr ≤ v := jsMin_le arr v hv
  have h2 : globalMin rows ≤ jsMin arr :=
    jsMin_le (rows.map jsMin) (jsMin arr) (List.mem_map_of_mem jsMin harr)
  exact h2.trans h1

theorem foldl_add_eq_sum {α : Type} [AddCommMonoid α] (xs : List α) (a : α) :
    xs.foldl (· + ·) a = a + xs.sum := by
  induction xs generalizing a with
  | nil => simp
  | cons x xs ih => simp [ih (a + x), add_assoc]

theorem reduceAdd_eq_sum (l : List ℚ) (h : l ≠ []) : reduceAdd l = l.sum := by
  cases l with
  | nil => exact absurd rfl h
  | cons x xs => simp [reduceAdd, foldl_add_eq_sum]

theorem addRow_length (a b : List ℚ) : (addRow a b).length = a.length :=
  idxMap_length 0 a _

theorem addRow_getD (a b : List ℚ) (j : ℕ) (h : j < a.length) :
    (addRow a b).getD j 0 = a.getD j 0 + b.getD j 0 :=
  idxMap_getD 0 a _ j h 0

theorem foldl_addRow_length (rs : List (List ℚ)) (acc : List ℚ) :
    (rs.foldl addRow acc).length = acc.length := by
  induction rs generalizing acc with
  | nil => rfl
  | cons r rs ih => simp [List.foldl_cons, ih, addRow_length]

theorem sumRows_length (r : List ℚ) (rs : List (List ℚ)) :
    (sumRows (r :: rs)).length = r.length := by
  simp [sumRows, foldl_addRow_length]

theorem foldl_addRow_getD (rs : List (List ℚ)) (acc : List ℚ) (j : ℕ)
    (h : j < acc.length) :
    (rs.foldl addRow acc).getD j 0 =
      acc.getD j 0 + (rs.map (fun t => t.getD j 0)).sum := by
  induction rs generalizing acc with
  | nil => simp
  | cons r rs ih =>
    have h' : j < (addRow acc r).length := by rw [addRow_length]; exact h
    simp only [List.foldl_cons, ih (addRow acc r) h', addRow_getD acc r j h,
      List.map_cons, List.sum_cons, add_assoc]

theorem sumRows_getD (r : List ℚ) (rs : List (List ℚ)) (j : ℕ)
    (h : j < r.length) :
    (sumRows (r :: rs)).getD j 0 =
      ((r :: rs).map (fun t => t.getD j 0)).sum := by
  have h1 : sumRows (r :: rs) = rs.foldl addRow r := rfl
  rw [h1, foldl_addRow_getD rs r j h, List.map_cons, List.sum_cons]

theorem headD_eq_getD_zero {α : Type} (l : List α) (d : α) :
    l.headD d = l.getD 0 d := by
  cases l <;> rfl

/-- Claim C4: starting an animated transition with a displayed set of one
boundary of three samples toward a destination of three boundaries of five
samples pads the displayed set to exactly three boundaries of five samples,
the two prepended boundaries equal to the original boundary 0 and the two
appended samples of every boundary equal to that boundary's original last
coordinate (the y = 0.5 default is reserved for empty boundaries and is not
used here). -/
theorem claimC4_padding (c0 c1 c2 : Coord) (dest : List (List Coord))
    (hlen : dest.length = 3) (hdim : (dest.headD []).length = 5) :
    padFromData [[c0, c1, c2]] dest =
      [[c0, c1, c2, c2, c2], [c0, c1, c2, c2, c2], [c0, c1, c2, c2, c2]] := by
  simp only [padFromData, hlen, hdim]
  rfl

/-- Witness for claim C4 at a concrete destination shape. -/
theorem claimC4_padding_witness :
    ([[((0:ℚ),(0:ℚ)),((0:ℚ),(0:ℚ)),((0:ℚ),(0:ℚ)),((0:ℚ),(0:ℚ)),((0:ℚ),(0:ℚ))],
      [((0:ℚ),(0:ℚ)),((0:ℚ),(0:ℚ)),((0:ℚ),(0:ℚ)),((0:ℚ),(0:ℚ)),((0:ℚ),(0:ℚ))],
      [((0:ℚ),(0:ℚ)),((0:ℚ),(0:ℚ)),((0:ℚ),(0:ℚ)),((0:ℚ),(0:ℚ)),((0:ℚ),(0:ℚ))]] :
        List (List Coord)).length = 3 ∧
    padFromData [[((1:ℚ),(2:ℚ)), ((3:ℚ),(4:ℚ)), ((5:ℚ),(6:ℚ))]]
      [[((0:ℚ),(0:ℚ)),((0:ℚ),(0:ℚ)),((0:ℚ),(0:ℚ)),((0:ℚ),(0:ℚ)),((0:ℚ),(0:ℚ))],
       [((0:ℚ),(0:ℚ)),((0:ℚ),(0:ℚ)),((0:ℚ),(0:ℚ)),((0:ℚ),(0:ℚ)),((0:ℚ),(0:ℚ))],
       [((0:ℚ),(0:ℚ)),((0:ℚ),(0:ℚ)),((0:ℚ),(0:ℚ)),((0:ℚ),(0:ℚ)),((0:ℚ),(0:ℚ))]] =
      [[((1:ℚ),(2:ℚ)), ((3:ℚ),(4:ℚ)), ((5:ℚ),(6:ℚ)), ((5:ℚ),(6:ℚ)), ((5:ℚ),(6:ℚ))],
       [((1:ℚ),(2:ℚ)), ((3:ℚ),(4:ℚ)), ((5:ℚ),(6:ℚ)), ((5:ℚ),(6:ℚ)), ((5:ℚ),(6:ℚ))],
       [((1:ℚ),(2:ℚ)), ((3:ℚ),(4:ℚ)), ((5:ℚ),(6:ℚ)), ((5:ℚ),(6:ℚ)), ((5:ℚ),(6:ℚ))]] :=
  ⟨rfl, claimC4_padding ((1:ℚ),(2:ℚ)) ((3:ℚ),(4:ℚ)) ((5:ℚ),(6:ℚ)) _ rfl rfl⟩

/-- Claim C5 counterexample: at elapsed time exactly equal to the duration
the tick takes the interpolation branch, so with a padded fromData of two
boundaries and a destination of one boundary the displayed set keeps two
boundaries (it is not deep-equal to the destination) and another tick is
scheduled; the claim asserts destination equality and no scheduling for all
elapsed times greater than or equal to the duration. -/
theorem claimC5_counterexample :
    (tick [[((0:ℚ),(0:ℚ))],[((0:ℚ),(0:ℚ))]] [[((1:ℚ),(1:ℚ))]] 1 1).1 ≠
      [[((1:ℚ),(1:ℚ))]] ∧
    (tick [[((0:ℚ),(0:ℚ))],[((0:ℚ),(0:ℚ))]] [[((1:ℚ),(1:ℚ))]] 1 1).2 = true := by
  have hlen2 :
      ((tick [[((0:ℚ),(0:ℚ))],[((0:ℚ),(0:ℚ))]] [[((1:ℚ),(1:ℚ))]] 1 1).1).length = 2 := by
    simp [tick, tickData, idxMap_length]
  refine ⟨fun h => ?_, by simp [tick]⟩
  rw [h] at hlen2
  simp at hlen2

/-- Claim C5 amended: once the elapsed time strictly exceeds the duration,
the tick assigns an exact copy of the destination as the displayed
coordinate set and schedules no further tick (at elapsed time exactly equal
to the duration the interpolated set is emitted instead and one more tick
is scheduled). -/
theorem claimC5_amended (fromData dest : List (List Coord))
    (timing elapsed : ℚ) (h : timing < elapsed) :
    tick fromData dest timing elapsed = (dest, false) := by
  unfold tick
  rw [if_neg (not_le.mpr h)]

/-- Witness for claim C5 amended at concrete inputs. -/
theorem claimC5_amended_witness :
    (1 : ℚ) < 2 ∧
    tick [[((0:ℚ),(0:ℚ))]] [[((3:ℚ),(4:ℚ))]] 1 2 = ([[((3:ℚ),(4:ℚ))]], false) :=
  ⟨by norm_num, claimC5_amended _ _ _ _ (by norm_num)⟩

/-- Claim C7 counterexample: assigning an empty dataset is not rejected;
the setter silently substitutes the default dataset [[0, 0]], commits it
over the previously stored dataset [[5]], and triggers an animated update
without any warning. -/
theorem claimC7_counterexample :
    (setData ⟨[[JSVal.num 5]], [], []⟩ []).warned = false ∧
    (setData ⟨[[JSVal.num 5]], [], []⟩ []).updateTriggered = true ∧
    (setData ⟨[[JSVal.num 5]], [], []⟩ []).state.data =
      [[JSVal.num 0, JSVal.num 0]] ∧
    [[JSVal.num 5]] ≠ [[JSVal.num 0, JSVal.num 0]] := by
  refine ⟨rfl, rfl, rfl, ?_⟩
  decide

/-- Claim C7 amended: assigning an empty dataset is never rejected; for
every prior state the setter replaces the assignment by the default dataset
[[0, 0]], commits it together with its recomputed derivative set, leaves
the displayed coordinate set to the triggered animation, warns nothing and
triggers the animated update. -/
theorem claimC7_amended (st : SetterState) :
    (setData st []).warned = false ∧
    (setData st []).updateTriggered = true ∧
    (setData st []).threw = false ∧
    (setData st []).state.data = [[JSVal.num 0, JSVal.num 0]] ∧
    (setData st []).state.dataDiff = updateDiffJS [[JSVal.num 0, JSVal.num 0]] ∧
    (setData st []).state.dataToDraw = st.dataToDraw :=
  ⟨rfl, rfl, rfl, rfl, rfl, rfl⟩

theorem add_notFin_left (a b : JSNum) (h : a.isFinite = false) :
    (a.add b).isFinite = false := by
  cases a <;> cases b <;> simp_all [JSNum.add, JSNum.isFinite]

theorem add_notFin_right (a b : JSNum) (h : b.isFinite = false) :
    (a.add b).isFinite = false := by
  cases a <;> cases b <;> simp_all [JSNum.add, JSNum.isFinite]

theorem foldl_add_notFin (l : List JSNum) (acc : JSNum)
    (h : acc.isFinite = false) :
    (l.foldl JSNum.add acc).isFinite = false := by
  induction l generalizing acc with
  | nil => exact h
  | cons x xs ih => exact ih _ (add_notFin_left _ _ h)

theorem foldl_add_notFin_mem (l : List JSNum) (acc x : JSNum) (hx : x ∈ l)
    (h : x.isFinite = false) :
    (l.foldl JSNum.add acc).isFinite = false := by
  induction l generalizing acc with
  | nil => cases hx
  | cons y ys ih =>
    rcases List.mem_cons.mp hx with rfl | hmem
    · exact foldl_add_notFin ys _ (add_notFin_right _ _ h)
    · exact ih _ hmem

theorem jsReduceAdd_notFin (l : List JSNum) (x : JSNum) (hx : x ∈ l)
    (h : x.isFinite = false) : (jsReduceAdd l).isFinite = false := by
  cases l with
  | nil => cases hx
  | cons y ys =>
    rcases List.mem_cons.mp hx with rfl | hmem
    · exact foldl_add_notFin ys x h
    · exact foldl_add_notFin_mem ys y x hmem h

theorem jsDiv_zero_notFin (a : ℚ) : (jsDiv a 0).isFinite = false := by
  unfold jsDiv
  simp only [ne_eq, not_true_eq_false, if_false, not_false_eq_true]
  split_ifs <;> rfl

theorem headD_mem {α : Type} (l : List α) (d : α) (h : l ≠ []) :
    l.headD d ∈ l := by
  cases l with
  | nil => exact absurd rfl h
  | cons x xs => exact List.mem_cons_self x xs

theorem diffOne_length (arr : List ℚ) : (diffOne arr).length = arr.length := by
  unfold diffOne
  split_ifs with h <;> simp

theorem updateDiff_length (data : List (List ℚ)) :
    (updateDiff data).length = data.length := by
  simp [updateDiff]

theorem updateDiff_ne_nil (data : List (List ℚ)) (h : data ≠ []) :
    updateDiff data ≠ [] := by
  intro hcon
  have := updateDiff_length data
  rw [hcon] at this
  exact h (List.length_eq_zero.mp this.symm)

theorem updateDiff_row_length {data : List (List ℚ)} {dim : ℕ}
    (hdim : ∀ r ∈ data, r.length = dim) :
    ∀ r ∈ updateDiff data, r.length = dim := by
  intro r hr
  simp only [updateDiff, List.mem_map] at hr
  obtain ⟨a, ha, rfl⟩ := hr
  rw [diffOne_length]
  exact hdim a ha

theorem sumRows_length' (rows : List (List ℚ)) (h : rows ≠ []) :
    (sumRows rows).length = (rows.headD []).length := by
  cases rows with
  | nil => exact absurd rfl h
  | cons r rs => simpa using sumRows_length r rs

theorem take_one_sumRows (rows : List (List ℚ)) (h : rows ≠ []) :
    sumRows (rows.take 1) = rows.headD [] := by
  cases rows with
  | nil => exact absurd rfl h
  | cons r rs => rfl

theorem idxMap_ne_nil {α β : Type} (d : α) (l : List α) (f : ℕ → α → β)
    (h : l ≠ []) : idxMap d l f ≠ [] := by
  intro hcon
  have := idxMap_length d l f
  rw [hcon] at this
  exact h (List.length_eq_zero.mp this.symm)

theorem idxMap_headD {α β : Type} (d : α) (l : List α) (f : ℕ → α → β)
    (h : l ≠ []) (d' : β) :
    (idxMap d l f).headD d' = f 0 (l.getD 0 d) := by
  rw [headD_eq_getD_zero]
  exact idxMap_getD d l f 0 (List.length_pos.mpr h) d'

theorem weightedWiggleDg0_length (data dataDiff : List (List ℚ)) {dim : ℕ}
    (hdne : dataDiff ≠ []) (hd0 : (dataDiff.headD []).length = dim) :
    (weightedWiggleDg0 data dataDiff).length = dim := by
  unfold weightedWiggleDg0
  rw [idxMap_length, sumRows_length' _ (idxMap_ne_nil _ _ _ hdne),
    idxMap_headD _ _ _ hdne, idxMap_length]
  simp only [Nat.zero_add, take_one_sumRows _ hdne]
  exact hd0

theorem weightedWiggleDg0_getD (data dataDiff : List (List ℚ)) {dim : ℕ}
    (hdne : dataDiff ≠ []) (hd0 : (dataDiff.headD []).length = dim)
    (s : ℕ) (hs : s < dim) (d : JSNum) :
    ∃ v : ℚ, (weightedWiggleDg0 data dataDiff).getD s d =
      jsDiv (-v) ((sumRows data).getD s 0) := by
  unfold weightedWiggleDg0
  have hlen :
      (sumRows (idxMap [] dataDiff (fun i dfi =>
        idxMap 0 (sumRows (dataDiff.take (i + 1))) (fun j v =>
          (v - dfi.getD j 0 / 2) * (data.getD i []).getD j 0)))).length = dim := by
    rw [sumRows_length' _ (idxMap_ne_nil _ _ _ hdne),
      idxMap_headD _ _ _ hdne, idxMap_length]
    simp only [Nat.zero_add, take_one_sumRows _ hdne]
    exact hd0
  refine ⟨_, idxMap_getD 0 _ _ s ?_ d⟩
  rw [hlen]
  exact hs

/-- Claim C1 counterexample: on the dataset [[0, 1], [0, 2]] the per-sample
stack height sfi at sample 0 is 0, and the weightedWiggle baseline at index
0 is NaN rather than a finite number: the source divides by sfi[i] without
any zero guard. -/
theorem claimC1_counterexample :
    (sumRows [[(0:ℚ), 1], [0, 2]]).getD 0 0 = 0 ∧
    weightedWiggle [[(0:ℚ), 1], [0, 2]]
      (updateDiff [[(0:ℚ), 1], [0, 2]]) 0 = JSNum.nan := by
  constructor
  · norm_num [sumRows, addRow, idxMap, List.range_succ]
  · norm_num [weightedWiggle, weightedWiggleDg0, updateDiff, diffOne,
      sumRows, addRow, idxMap, jsDiv, jsReduceAdd, List.range_succ]

/-- Claim C1 amended: the weightedWiggle code has no division-by-zero
guard, so for every dataset and every sample s with per-sample total stack
height 0, the baseline at any index at or after s is NaN or an infinity
(not the finite number the claim asserts); the guarded value 0 described by
the spec is not computed. -/
theorem claimC1_amended (data : List (List ℚ)) (dim s index : ℕ)
    (hne : data ≠ []) (hdim : ∀ r ∈ data, r.length = dim)
    (hs : s ≤ index) (hidx : index < dim)
    (hsfi : (sumRows data).getD s 0 = 0) :
    (weightedWiggle data (updateDiff data) index).isFinite = false := by
  have hdne : updateDiff data ≠ [] := updateDiff_ne_nil data hne
  have hd0 : ((updateDiff data).headD []).length = dim :=
    updateDiff_row_length hdim _ (headD_mem _ [] hdne)
  have hsdim : s < dim := lt_of_le_of_lt hs hidx
  have hlen : (weightedWiggleDg0 data (updateDiff data)).length = dim :=
    weightedWiggleDg0_length data _ hdne hd0
  obtain ⟨v, hv⟩ :=
    weightedWiggleDg0_getD data (updateDiff data) hdne hd0 s hsdim JSNum.nan
  have hslt : s < index + 1 := Nat.lt_succ_of_le hs
  have htake :
      ((weightedWiggleDg0 data (updateDiff data)).take (index + 1)).getD s
        JSNum.nan =
      (weightedWiggleDg0 data (updateDiff data)).getD s JSNum.nan := by
    simp [List.getD_eq_getElem?_getD, List.getElem?_take_of_lt hslt]
  have hltlen :
      s < ((weightedWiggleDg0 data (updateDiff data)).take (index + 1)).length := by
    rw [List.length_take]
    exact lt_min hslt (by rw [hlen]; exact hsdim)
  have hmem := getD_mem_of_lt _ s JSNum.nan hltlen
  refine jsReduceAdd_notFin _ _ hmem ?_
  rw [htake, hv, hsfi]
  exact jsDiv_zero_notFin _

/-- Witness for claim C1 amended at the concrete dataset [[0, 1], [0, 2]]. -/
theorem claimC1_amended_witness :
    (sumRows [[(0:ℚ), 1], [0, 2]]).getD 0 0 = 0 ∧
    (weightedWiggle [[(0:ℚ), 1], [0, 2]]
      (updateDiff [[(0:ℚ), 1], [0, 2]]) 0).isFinite = false := by
  have hsfi : (sumRows [[(0:ℚ), 1], [0, 2]]).getD 0 0 = 0 := by
    norm_num [sumRows, addRow, idxMap, List.range_succ]
  refine ⟨hsfi, claimC1_amended [[(0:ℚ), 1], [0, 2]] 2 0 0 ?_ ?_ ?_ ?_ hsfi⟩
  · intro hcon
    cases hcon
  · intro r hr
    rcases List.mem_cons.mp hr with rfl | hr
    · rfl
    · rcases List.mem_cons.mp hr with rfl | hr
      · rfl
      · cases hr
  · exact le_refl 0
  · exact Nat.zero_lt_succ 1

theorem numericCount_eq (arr : List JSVal) (h : arr ≠ []) :
    numericCount arr = some (numCountD arr) := by
  cases arr with
  | nil => exact absurd rfl h
  | cons a as =>
    simp [numericCount, numCountD, jsReduceNat, foldl_add_eq_sum]

theorem validator_eq (rows : List (List JSVal))
    (h : ∀ arr ∈ rows, arr ≠ []) :
    rows.mapM (fun arr => (numericCount arr).map (fun c => (c, arr.length))) =
      some (rows.map (fun arr => (numCountD arr, arr.length))) := by
  induction rows with
  | nil => rfl
  | cons r rs ih =>
    have hr : r ≠ [] := h r (List.mem_cons_self r rs)
    have hrs : ∀ arr ∈ rs, arr ≠ [] := fun arr ha => h arr (List.mem_cons_of_mem r ha)
    rw [List.mapM_cons, numericCount_eq r hr, ih hrs]
    rfl

theorem allConsecEq_all_eq (l : List (ℕ × ℕ)) (h : allConsecEq l = true) :
    ∀ a ∈ l, ∀ b ∈ l, a = b := by
  induction l with
  | nil => intro a ha; cases ha
  | cons x t ih =>
    cases t with
    | nil =>
      intro a ha b hb
      rcases List.mem_cons.mp ha with rfl | ha
      · rcases List.mem_cons.mp hb with rfl | hb
        · rfl
        · cases hb
      · cases ha
    | cons y rest =>
      have hxy : x = y ∧ allConsecEq (y :: rest) = true := by
        simpa [allConsecEq, Bool.and_eq_true, decide_eq_true_eq] using h
      have key : ∀ c ∈ x :: y :: rest, c = y := by
        intro c hc
        rcases List.mem_cons.mp hc with rfl | hc
        · exact hxy.1
        · exact ih hxy.2 c hc y (List.mem_cons_self y rest)
      intro a ha b hb
      rw [key a ha, key b hb]

theorem allConsecEq_of_const (l : List (ℕ × ℕ)) (p : ℕ × ℕ)
    (h : ∀ a ∈ l, a = p) : allConsecEq l = true := by
  induction l with
  | nil => rfl
  | cons x t ih =>
    cases t with
    | nil => rfl
    | cons y rest =>
      have hx : x = p := h x (List.mem_cons_self _ _)
      have hy : y = p := h y (List.mem_cons_of_mem _ (List.mem_cons_self _ _))
      have hrest : ∀ a ∈ y :: rest, a = p := fun a ha =>
        h a (List.mem_cons_of_mem _ ha)
      show (decide (x = y) && allConsecEq (y :: rest)) = true
      rw [ih hrest, hx, hy]
      simp

/-- Claim C6 counterexample: for the assignment [[], [0]] the series have
inconsistent lengths (0 and 1), yet no warning is surfaced: the validator's
arr.map(...).reduce((a, b) => a + b) throws a TypeError on the empty first
series before the length comparison runs.  The stored state is still left
untouched, but the failure mode is an exception escaping the setter, not
the claimed warning. -/
theorem claimC6_counterexample :
    (setData ⟨[[JSVal.nonnum 7]], [], []⟩ [[], [JSVal.num 0]]).threw = true ∧
    (setData ⟨[[JSVal.nonnum 7]], [], []⟩ [[], [JSVal.num 0]]).warned = false ∧
    (setData ⟨[[JSVal.nonnum 7]], [], []⟩ [[], [JSVal.num 0]]).state =
      ⟨[[JSVal.nonnum 7]], [], []⟩ ∧
    ([] : List JSVal).length ≠ ([JSVal.num 0] : List JSVal).length := by
  refine ⟨rfl, rfl, rfl, by decide⟩

/-- Claim C6 amended: for every assignment whose series are all nonempty
and in which two series disagree in length or in numeric-entry count, the
assignment is rejected entirely: console.warn runs, the stored dataset,
derivative set and displayed coordinate set are left exactly as they were,
and no recomputation or animation is triggered.  (A dataset containing an
empty series is instead rejected by an escaping TypeError from the
validator's reduce, without the warning.) -/
theorem claimC6_amended (st : SetterState) (newVal : List (List JSVal))
    (hnonempty : ∀ arr ∈ newVal, arr ≠ [])
    (r1 r2 : List JSVal) (h1 : r1 ∈ newVal) (h2 : r2 ∈ newVal)
    (hmis : r1.length ≠ r2.length ∨ numCountD r1 ≠ numCountD r2) :
    setData st newVal =
      { state := st, warned := true, updateTriggered := false,
        threw := false } := by
  have hne : newVal ≠ [] := by
    intro hcon
    rw [hcon] at h1
    cases h1
  have hlen0 : ¬ newVal.length = 0 := fun hcon =>
    hne (List.length_eq_zero.mp hcon)
  have hfalse :
      allConsecEq (newVal.map (fun arr => (numCountD arr, arr.length))) =
        false := by
    cases hb : allConsecEq (newVal.map (fun arr => (numCountD arr, arr.length))) with
    | false => rfl
    | true =>
      exfalso
      have hall := allConsecEq_all_eq _ hb
      have heq := hall (numCountD r1, r1.length)
        (List.mem_map_of_mem _ h1) (numCountD r2, r2.length)
        (List.mem_map_of_mem _ h2)
      rcases hmis with hmis | hmis
      · exact hmis (congrArg Prod.snd heq)
      · exact hmis (congrArg Prod.fst heq)
  simp only [setData, if_neg hlen0, validator_eq newVal hnonempty, hfalse,
    Bool.false_eq_true, if_false]

/-- Witness for claim C6 amended: two nonempty numeric series of lengths 1
and 2 are rejected with a warning and an unchanged state. -/
theorem claimC6_amended_witness :
    ([JSVal.num 1] : List JSVal).length ≠
      ([JSVal.num 2, JSVal.num 3] : List JSVal).length ∧
    setData ⟨[], [], []⟩ [[JSVal.num 1], [JSVal.num 2, JSVal.num 3]] =
      { state := ⟨[], [], []⟩, warned := true, updateTriggered := false,
        threw := false } := by
  have hmis : ([JSVal.num 1] : List JSVal).length ≠
      ([JSVal.num 2, JSVal.num 3] : List JSVal).length := by decide
  refine ⟨hmis, claimC6_amended _ _ ?_ [JSVal.num 1] [JSVal.num 2, JSVal.num 3]
    (List.mem_cons_self _ _) (List.mem_cons_of_mem _ (List.mem_cons_self _ _))
    (Or.inl hmis)⟩
  intro arr harr
  rcases List.mem_cons.mp harr with rfl | harr
  · intro hcon; cases hcon
  · rcases List.mem_cons.mp harr with rfl | harr
    · intro hcon; cases hcon
    · cases harr

/-- Claim C10 counterexample: the dataset [[], []] has all series of equal
length (0) and equal numeric-entry count (0), yet the assignment is not
accepted and committed: the validator's reduce throws a TypeError on the
empty series, nothing is committed and no update is triggered. -/
theorem claimC10_counterexample :
    (∀ arr ∈ ([[], []] : List (List JSVal)), arr.length = 0 ∧
      numCountD arr = 0) ∧
    (setData ⟨[[JSVal.nonnum 1]], [], []⟩ [[], []]).threw = true ∧
    (setData ⟨[[JSVal.nonnum 1]], [], []⟩ [[], []]).updateTriggered = false ∧
    (setData ⟨[[JSVal.nonnum 1]], [], []⟩ [[], []]).state.data =
      [[JSVal.nonnum 1]] := by
  refine ⟨?_, rfl, rfl, rfl⟩
  intro arr harr
  rcases List.mem_cons.mp harr with rfl | harr
  · exact ⟨rfl, rfl⟩
  · rcases List.mem_cons.mp harr with rfl | harr
    · exact ⟨rfl, rfl⟩
    · cases harr

/-- Claim C10 amended: the validator only compares consecutive series'
(numeric count, length) pairs, so every nonempty candidate dataset whose
series all share one length of at least 1 and one numeric-entry count is
accepted and committed, even when entries are non-numeric; the numeric
count is never required to equal the series length.  (A shared length of 0
instead makes the validator's reduce throw.) -/
theorem claimC10_amended (st : SetterState) (newVal : List (List JSVal))
    (L C : ℕ) (hL : 1 ≤ L) (hne : newVal ≠ [])
    (hlen : ∀ arr ∈ newVal, arr.length = L)
    (hcount : ∀ arr ∈ newVal, numCountD arr = C) :
    setData st newVal =
      { state := { data := newVal, dataDiff := updateDiffJS newVal,
                   dataToDraw := st.dataToDraw },
        warned := false, updateTriggered := true, threw := false } := by
  have hnonempty : ∀ arr ∈ newVal, arr ≠ [] := by
    intro arr harr hcon
    have h0 := hlen arr harr
    rw [hcon] at h0
    simp at h0
    omega
  have hlen0 : ¬ newVal.length = 0 := fun hcon =>
    hne (List.length_eq_zero.mp hcon)
  have htrue :
      allConsecEq (newVal.map (fun arr => (numCountD arr, arr.length))) =
        true := by
    refine allConsecEq_of_const _ (C, L) ?_
    intro a ha
    rcases List.mem_map.mp ha with ⟨arr, harr, rfl⟩
    rw [hcount arr harr, hlen arr harr]
  simp only [setData, if_neg hlen0, validator_eq newVal hnonempty, htrue,
    if_true]

/-- Witness for claim C10 amended: a dataset of two all-string series of
length 1 passes validation and is committed with an animated update. -/
theorem claimC10_amended_witness :
    numCountD [JSVal.nonnum 0] = 0 ∧ numCountD [JSVal.nonnum 1] = 0 ∧
    setData ⟨[], [], []⟩ [[JSVal.nonnum 0], [JSVal.nonnum 1]] =
      { state := { data := [[JSVal.nonnum 0], [JSVal.nonnum 1]],
                   dataDiff := updateDiffJS [[JSVal.nonnum 0], [JSVal.nonnum 1]],
                   dataToDraw := [] },
        warned := false, updateTriggered := true, threw := false } := by
  refine ⟨rfl, rfl, claimC10_amended _ _ 1 0 (le_refl 1) ?_ ?_ ?_⟩
  · intro hcon; cases hcon
  · intro arr harr
    rcases List.mem_cons.mp harr with rfl | harr
    · rfl
    · rcases List.mem_cons.mp harr with rfl | harr
      · rfl
      · cases harr
  · intro arr harr
    rcases List.mem_cons.mp harr with rfl | harr
    · rfl
    · rcases List.mem_cons.mp harr with rfl | harr
      · rfl
      · cases harr

theorem accRows_getD_formula (rs : List (List ℚ)) (prev : List ℚ) (m : ℕ)
    (hm : m < rs.length) :
    (accRows prev rs).getD m [] =
      addRow (rs.getD m [])
        (if m = 0 then prev else (accRows prev rs).getD (m - 1) []) := by
  induction rs generalizing prev m with
  | nil => cases hm
  | cons r rs' ih =>
    cases m with
    | zero => rfl
    | succ m' =>
      have hm' : m' < rs'.length := Nat.lt_of_succ_lt_succ hm
      have hstep :
          (accRows prev (r :: rs')).getD (m' + 1) [] =
            (accRows (addRow r prev) rs').getD m' [] := rfl
      rw [hstep, ih (addRow r prev) m' hm']
      cases m' with
      | zero => rfl
      | succ m'' => rfl

/-- Claim C3: after the accumulation step of updateDrawing, boundary k
minus boundary k - 1, pointwise per sample, equals band k - 1's original
values for every k from 1 to bandCount; over the exact rationals the
equation holds exactly, which is within any floating tolerance. -/
theorem claimC3_accumulate (data : List (List ℚ)) (bf : ℕ → ℚ) (dim : ℕ)
    (hdim : ∀ r ∈ data, r.length = dim)
    (k : ℕ) (hk1 : 1 ≤ k) (hk2 : k ≤ data.length)
    (j : ℕ) (hj : j < dim) :
    ((accumulate (withBase data bf)).getD k []).getD j 0 -
      ((accumulate (withBase data bf)).getD (k - 1) []).getD j 0 =
    (data.getD (k - 1) []).getD j 0 := by
  obtain ⟨m, rfl⟩ : ∃ m, k = m + 1 := ⟨k - 1, (Nat.succ_pred_eq_of_pos hk1).symm⟩
  have hm : m < data.length := Nat.lt_of_succ_le hk2
  have hacc :
      accumulate (withBase data bf) =
        ((List.range (data.headD []).length).map bf) ::
          accRows ((List.range (data.headD []).length).map bf) data := rfl
  have hrowlen : (data.getD m []).length = dim :=
    hdim _ (getD_mem_of_lt data m [] hm)
  have hjm : j < (data.getD m []).length := by rw [hrowlen]; exact hj
  have hbk :
      (accumulate (withBase data bf)).getD (m + 1) [] =
        addRow (data.getD m [])
          ((accumulate (withBase data bf)).getD m []) := by
    rw [hacc, List.getD_cons_succ,
      accRows_getD_formula data _ m hm]
    cases m with
    | zero => rfl
    | succ m'' => rfl
  rw [Nat.add_sub_cancel, hbk, addRow_getD _ _ j hjm]
  ring

/-- Witness for claim C3 at the dataset [[1, 2], [3, 4]] with the zero
baseline, k = 1, sample 0. -/
theorem claimC3_accumulate_witness :
    (0 : ℕ) < 2 ∧
    ((accumulate (withBase [[(1:ℚ), 2], [3, 4]] (fun _ => 0))).getD 1 []).getD 0 0 -
      ((accumulate (withBase [[(1:ℚ), 2], [3, 4]] (fun _ => 0))).getD 0 []).getD 0 0 =
    (([[(1:ℚ), 2], [3, 4]].getD 0 [])).getD 0 0 := by
  refine ⟨by decide, claimC3_accumulate [[(1:ℚ), 2], [3, 4]] (fun _ => 0) 2 ?_
    1 (le_refl 1) (by decide) 0 (by decide)⟩
  intro r hr
  rcases List.mem_cons.mp hr with rfl | hr
  · rfl
  · rcases List.mem_cons.mp hr with rfl | hr
    · rfl
    · cases hr

theorem sumRows_getD' (rows : List (List ℚ)) (h : rows ≠ []) (s : ℕ)
    (hs : s < (rows.headD []).length) :
    (sumRows rows).getD s 0 = (rows.map (fun t => t.getD s 0)).sum := by
  cases rows with
  | nil => exact absurd rfl h
  | cons r rs => exact sumRows_getD r rs s (by simpa using hs)

theorem getD_map_of_lt {α β : Type} (f : α → β) (l : List α) (s : ℕ)
    (h : s < l.length) (d : β) (d' : α) :
    (l.map f).getD s d = f (l.getD s d') := by
  simp [List.getD_eq_getElem?_getD, List.getElem?_map,
    List.getElem?_eq_getElem h]

theorem take_eq_range_map (l : List ℚ) (k : ℕ) (hk : k ≤ l.length) :
    l.take k = (List.range k).map (fun s => l.getD s 0) := by
  induction l generalizing k with
  | nil =>
    have : k = 0 := Nat.le_zero.mp hk
    subst this
    rfl
  | cons x xs ih =>
    cases k with
    | zero => rfl
    | succ k' =>
      rw [List.take_succ_cons, List.range_succ_eq_map, List.map_cons,
        List.map_map, ih k' (Nat.le_of_succ_le_succ hk)]
      rfl

theorem map_div_sum (l : List ℕ) (g : ℕ → ℚ) (c : ℚ) :
    (l.map (fun s => g s / c)).sum = (l.map g).sum / c := by
  induction l with
  | nil => simp
  | cons x xs ih => simp [ih, add_div]

theorem reduceAdd_take (l : List ℚ) (k : ℕ) (hk : k + 1 ≤ l.length) :
    reduceAdd (l.take (k + 1)) =
      ((List.range (k + 1)).map (fun s => l.getD s 0)).sum := by
  rw [take_eq_range_map l (k + 1) hk]
  refine reduceAdd_eq_sum _ ?_
  simp [List.range_succ_eq_map]

theorem wiggleDg0_length (dataDiff : List (List ℚ)) {dim : ℕ}
    (hdne : dataDiff ≠ []) (hd0 : (dataDiff.headD []).length = dim) :
    (wiggleDg0 dataDiff).length = dim := by
  unfold wiggleDg0
  rw [sumRows_length' _ (idxMap_ne_nil _ _ _ hdne),
    idxMap_headD _ _ _ hdne, List.length_map, ← headD_eq_getD_zero]
  exact hd0

theorem wiggleDg0_getD (dataDiff : List (List ℚ)) {dim : ℕ}
    (hdne : dataDiff ≠ []) (hdim : ∀ r ∈ dataDiff, r.length = dim)
    (s : ℕ) (hs : s < dim) :
    (wiggleDg0 dataDiff).getD s 0 =
      ((List.range dataDiff.length).map (fun b =>
        -((dataDiff.getD b []).getD s 0) *
          ((dataDiff.length - b : ℕ) : ℚ))).sum := by
  have hd0 : (dataDiff.headD []).length = dim :=
    hdim _ (headD_mem _ _ hdne)
  unfold wiggleDg0
  rw [sumRows_getD' _ (idxMap_ne_nil _ _ _ hdne) s ?hlt]
  case hlt =>
    rw [idxMap_headD _ _ _ hdne, List.length_map, ← headD_eq_getD_zero, hd0]
    exact hs
  unfold idxMap
  rw [List.map_map]
  refine congrArg List.sum (List.map_congr_left ?_)
  intro b hb
  have hblt : b < dataDiff.length := List.mem_range.mp hb
  have hrow : (dataDiff.getD b []).length = dim :=
    hdim _ (getD_mem_of_lt dataDiff b [] hblt)
  have hsrow : s < (dataDiff.getD b []).length := by rw [hrow]; exact hs
  simp only [Function.comp]
  rw [getD_map_of_lt _ _ s hsrow 0 0]

/-- Claim C8: the wiggle baseline at every sample index equals the running
sum, over samples 0 through the index, of the per-sample vector obtained by
summing -derivative[band][sample] * (bandCount - band) across bands and
dividing by bandCount + 1 (over exact rationals the source's single final
division agrees with the spec's per-sample division). -/
theorem claimC8_wiggle (data : List (List ℚ)) (dim : ℕ)
    (hne : data ≠ []) (hdim : ∀ r ∈ data, r.length = dim)
    (index : ℕ) (hidx : index < dim) :
    wiggle data (updateDiff data) index = wiggleSpec data index := by
  have hdne : updateDiff data ≠ [] := updateDiff_ne_nil data hne
  have hddim : ∀ r ∈ updateDiff data, r.length = dim :=
    updateDiff_row_length hdim
  have hd0 : ((updateDiff data).headD []).length = dim :=
    hddim _ (headD_mem _ _ hdne)
  have hlen : (wiggleDg0 (updateDiff data)).length = dim :=
    wiggleDg0_length _ hdne hd0
  unfold wiggle wiggleSpec
  rw [reduceAdd_take _ index (by rw [hlen]; exact hidx), map_div_sum]
  congr 1
  refine congrArg List.sum (List.map_congr_left ?_)
  intro s hs
  have hsdim : s < dim := lt_of_lt_of_le (List.mem_range.mp hs) hidx
  rw [wiggleDg0_getD _ hdne hddim s hsdim, updateDiff_length]

/-- Witness for claim C8 at the dataset [[1, 2, 4], [0, 1, 3]], index 2. -/
theorem claimC8_wiggle_witness :
    (2 : ℕ) < 3 ∧
    wiggle [[(1:ℚ), 2, 4], [0, 1, 3]]
      (updateDiff [[(1:ℚ), 2, 4], [0, 1, 3]]) 2 =
    wiggleSpec [[(1:ℚ), 2, 4], [0, 1, 3]] 2 := by
  refine ⟨by decide, claimC8_wiggle [[(1:ℚ), 2, 4], [0, 1, 3]] 3 ?_ ?_ 2
    (by decide)⟩
  · intro hcon; cases hcon
  · intro r hr
    rcases List.mem_cons.mp hr with rfl | hr
    · rfl
    · rcases List.mem_cons.mp hr with rfl | hr
      · rfl
      · cases hr

theorem accRows_length (prev : List ℚ) (rs : List (List ℚ)) :
    (accRows prev rs).length = rs.length := by
  induction rs generalizing prev with
  | nil => rfl
  | cons r rs' ih => simp [accRows, ih]

theorem accumulate_length (rows : List (List ℚ)) :
    (accumulate rows).length = rows.length := by
  cases rows with
  | nil => rfl
  | cons r rs => simp [accumulate, accRows_length]

theorem accRows_row_length {dim : ℕ} (prev : List ℚ) (rs : List (List ℚ))
    (hdim : ∀ r ∈ rs, r.length = dim) :
    ∀ r ∈ accRows prev rs, r.length = dim := by
  induction rs generalizing prev with
  | nil => intro r hr; cases hr
  | cons r0 rs' ih =>
    intro r hr
    rcases List.mem_cons.mp hr with rfl | hr
    · rw [addRow_length]
      exact hdim r0 (List.mem_cons_self _ _)
    · exact ih (addRow r0 prev)
        (fun t ht => hdim t (List.mem_cons_of_mem _ ht)) r hr

theorem accumulate_row_length {dim : ℕ} (rows : List (List ℚ))
    (hdim : ∀ r ∈ rows, r.length = dim) :
    ∀ r ∈ accumulate rows, r.length = dim := by
  cases rows with
  | nil => intro r hr; cases hr
  | cons r0 rs =>
    intro r hr
    rcases List.mem_cons.mp hr with rfl | hr
    · exact hdim _ (List.mem_cons_self _ _)
    · exact accRows_row_length _ rs
        (fun t ht => hdim t (List.mem_cons_of_mem _ ht)) r hr

theorem withBase_length (data : List (List ℚ)) (bf : ℕ → ℚ) :
    (withBase data bf).length = data.length + 1 := by
  simp [withBase]

theorem withBase_row_length {dim : ℕ} (data : List (List ℚ)) (bf : ℕ → ℚ)
    (hne : data ≠ []) (hdim : ∀ r ∈ data, r.length = dim) :
    ∀ r ∈ withBase data bf, r.length = dim := by
  intro r hr
  rcases List.mem_cons.mp hr with rfl | hr
  · rw [List.length_map, List.length_range]
    exact hdim _ (headD_mem _ _ hne)
  · exact hdim r hr

theorem withBase_ne_nil (data : List (List ℚ)) (bf : ℕ → ℚ) :
    withBase data bf ≠ [] := by
  intro hcon
  cases hcon

theorem accumulate_ne_nil (rows : List (List ℚ)) (h : rows ≠ []) :
    accumulate rows ≠ [] := by
  intro hcon
  have := accumulate_length rows
  rw [hcon] at this
  exact h (List.length_eq_zero.mp this.symm)

theorem globalMin_le_globalMax {dim : ℕ} (rows : List (List ℚ))
    (hne : rows ≠ []) (hdim : ∀ r ∈ rows, r.length = dim) (hd1 : 1 ≤ dim) :
    globalMin rows ≤ globalMax rows := by
  have hrow : rows.headD [] ∈ rows := headD_mem _ _ hne
  have hlen : 0 < (rows.headD []).length := by
    rw [hdim _ hrow]
    omega
  have hv : (rows.headD []).getD 0 0 ∈ rows.headD [] :=
    getD_mem_of_lt _ 0 0 hlen
  exact (globalMin_le rows _ _ hrow hv).trans (le_globalMax rows _ _ hrow hv)

/-- Claim C2: for every valid dataset (nonempty, all series of one length
of at least 1) and every baseline function, the coordinate set built by the
non-animated update has bandCount + 1 boundaries, each of length dimension,
with every coordinate inside the closed unit square; and for degenerate
inputs the ill-defined ratios are emitted as 0: the x ratio whenever the
dimension is 1 and the y ratio whenever the global maximum equals the
global minimum. -/
theorem claimC2_updateDest (data : List (List ℚ)) (bf : ℕ → ℚ) (dim : ℕ)
    (hne : data ≠ []) (hdim : ∀ r ∈ data, r.length = dim) (hd1 : 1 ≤ dim) :
    (updateDest data bf).length = data.length + 1 ∧
    (∀ row ∈ updateDest data bf, row.length = dim) ∧
    (∀ row ∈ updateDest data bf, ∀ c ∈ row,
      0 ≤ c.1 ∧ c.1 ≤ 1 ∧ 0 ≤ c.2 ∧ c.2 ≤ 1) ∧
    (dim = 1 → ∀ row ∈ updateDest data bf, ∀ c ∈ row, c.1 = 0) ∧
    (globalMax (accumulate (withBase data bf)) =
        globalMin (accumulate (withBase data bf)) →
      ∀ row ∈ updateDest data bf, ∀ c ∈ row, c.2 = 0) := by
  have hrows_dim : ∀ r ∈ accumulate (withBase data bf), r.length = dim :=
    accumulate_row_length _ (withBase_row_length data bf hne hdim)
  have hrows_ne : accumulate (withBase data bf) ≠ [] :=
    accumulate_ne_nil _ (withBase_ne_nil data bf)
  have hdecomp : ∀ row ∈ updateDest data bf, ∀ c ∈ row,
      ∃ arr ∈ accumulate (withBase data bf), ∃ i, i < dim ∧
        c = ((i : ℚ) / ((dim : ℚ) - 1),
          (arr.getD i 0 - globalMin (accumulate (withBase data bf))) /
            (globalMax (accumulate (withBase data bf)) -
              globalMin (accumulate (withBase data bf)))) := by
    intro row hrow c hc
    unfold updateDest normalizeRows at hrow
    rcases List.mem_map.mp hrow with ⟨arr, harr, rfl⟩
    rcases mem_idxMap hc with ⟨i, hi, rfl⟩
    refine ⟨arr, harr, i, ?_, ?_⟩
    · rw [hrows_dim arr harr] at hi
      exact hi
    · rw [hrows_dim arr harr]
  refine ⟨?_, ?_, ?_, ?_, ?_⟩
  · unfold updateDest normalizeRows
    rw [List.length_map, accumulate_length, withBase_length]
  · intro row hrow
    unfold updateDest normalizeRows at hrow
    rcases List.mem_map.mp hrow with ⟨arr, harr, rfl⟩
    rw [idxMap_length]
    exact hrows_dim arr harr
  · intro row hrow c hc
    rcases hdecomp row hrow c hc with ⟨arr, harr, i, hi, rfl⟩
    constructor
    · dsimp only
      rcases eq_or_lt_of_le hd1 with hdim1 | hdim2
      · rw [← hdim1]
        norm_num
      · have hpos : (0 : ℚ) < (dim : ℚ) - 1 := by
          have : (1 : ℚ) < (dim : ℚ) := by exact_mod_cast hdim2
          linarith
        exact div_nonneg (by positivity) hpos.le
    constructor
    · dsimp only
      rcases eq_or_lt_of_le hd1 with hdim1 | hdim2
      · rw [← hdim1]
        norm_num
      · have hpos : (0 : ℚ) < (dim : ℚ) - 1 := by
          have : (1 : ℚ) < (dim : ℚ) := by exact_mod_cast hdim2
          linarith
        rw [div_le_one hpos]
        have hile : (i : ℚ) ≤ (dim : ℚ) - 1 := by
          have : i + 1 ≤ dim := hi
          have hcast : ((i : ℕ) : ℚ) + 1 ≤ (dim : ℚ) := by exact_mod_cast this
          linarith
        exact hile
    · dsimp only
      have hx : arr.getD i 0 ∈ arr := by
        refine getD_mem_of_lt _ i 0 ?_
        rw [hrows_dim arr harr]
        exact hi
      have hmn : globalMin (accumulate (withBase data bf)) ≤ arr.getD i 0 :=
        globalMin_le _ arr _ harr hx
      have hmx : arr.getD i 0 ≤ globalMax (accumulate (withBase data bf)) :=
        le_globalMax _ arr _ harr hx
      rcases eq_or_ne (globalMax (accumulate (withBase data bf)))
          (globalMin (accumulate (withBase data bf))) with heq | hlt
      · rw [heq, sub_self, div_zero]
        norm_num
      · have hgt : globalMin (accumulate (withBase data bf)) <
            globalMax (accumulate (withBase data bf)) :=
          lt_of_le_of_ne (hmn.trans hmx) (Ne.symm hlt)
        have hpos : (0 : ℚ) < globalMax (accumulate (withBase data bf)) -
            globalMin (accumulate (withBase data bf)) := by linarith
        constructor
        · exact div_nonneg (by linarith) hpos.le
        · rw [div_le_one hpos]
          linarith
  · intro hdim1 row hrow c hc
    rcases hdecomp row hrow c hc with ⟨arr, harr, i, hi, rfl⟩
    dsimp only
    rw [hdim1] at hi
    interval_cases i
    norm_num
  · intro heq row hrow c hc
    rcases hdecomp row hrow c hc with ⟨arr, harr, i, hi, rfl⟩
    dsimp only
    rw [heq, sub_self, div_zero]

/-- Witness for claim C2 at the dataset [[1, 2, 3], [4, 5, 6]] with the
zero baseline. -/
theorem claimC2_updateDest_witness :
    (1 : ℕ) ≤ 3 ∧
    (updateDest [[(1:ℚ), 2, 3], [4, 5, 6]] (fun _ => 0)).length = 3 ∧
    (∀ row ∈ updateDest [[(1:ℚ), 2, 3], [4, 5, 6]] (fun _ => 0),
      row.length = 3) ∧
    (∀ row ∈ updateDest [[(1:ℚ), 2, 3], [4, 5, 6]] (fun _ => 0), ∀ c ∈ row,
      0 ≤ c.1 ∧ c.1 ≤ 1 ∧ 0 ≤ c.2 ∧ c.2 ≤ 1) := by
  have hdim : ∀ r ∈ ([[(1:ℚ), 2, 3], [4, 5, 6]] : List (List ℚ)),
      r.length = 3 := by
    intro r hr
    rcases List.mem_cons.mp hr with rfl | hr
    · rfl
    · rcases List.mem_cons.mp hr with rfl | hr
      · rfl
      · cases hr
  have hmain := claimC2_updateDest [[(1:ℚ), 2, 3], [4, 5, 6]] (fun _ => 0) 3
    (by intro hcon; cases hcon) hdim (by decide)
  exact ⟨by decide, hmain.1, hmain.2.1, hmain.2.2.1⟩

theorem cache_eta_diff (c : GraphCache) (v : List (List ℚ))
    (h : c.dataDiff = v) :
    ({ c with dataDiff := v } : GraphCache) = c := by
  cases c
  simp_all

theorem ensureDiff_stable (data : List (List ℚ)) (c : GraphCache) :
    (ensureDiff data c).dataDiff.length = 0 →
      (ensureDiff data c).dataDiff = updateDiff data := by
  unfold ensureDiff
  split_ifs with h
  · intro _
    rfl
  · intro h0
    exact absurd h0 h

theorem ensureDiff_of_stable (data : List (List ℚ)) (c : GraphCache)
    (h : c.dataDiff.length = 0 → c.dataDiff = updateDiff data) :
    ensureDiff data c = c := by
  unfold ensureDiff
  split_ifs with h0
  · exact cache_eta_diff c _ (h h0)
  · rfl

theorem ensureWiggle_dataDiff (data : List (List ℚ)) (c : GraphCache) :
    (ensureWiggle data c).dataDiff = (ensureDiff data c).dataDiff := by
  unfold ensureWiggle
  split_ifs <;> rfl

theorem ensureWW_dataDiff (data : List (List ℚ)) (c : GraphCache) :
    (ensureWW data c).dataDiff = (ensureDiff data c).dataDiff := by
  unfold ensureWW
  split_ifs <;> rfl

theorem ensureWiggle_key (data : List (List ℚ)) (c : GraphCache) :
    (ensureWiggle data c).wiggleData = some data := by
  unfold ensureWiggle
  split_ifs with h
  · exact h
  · rfl

theorem ensureWW_key (data : List (List ℚ)) (c : GraphCache) :
    (ensureWW data c).wwData = some data := by
  unfold ensureWW
  split_ifs with h
  · exact h
  · rfl

theorem ensureWiggle_idem (data : List (List ℚ)) (c : GraphCache) :
    ensureWiggle data (ensureWiggle data c) = ensureWiggle data c := by
  have hdd : ensureDiff data (ensureWiggle data c) = ensureWiggle data c := by
    refine ensureDiff_of_stable data _ ?_
    rw [ensureWiggle_dataDiff]
    exact ensureDiff_stable data c
  set w := ensureWiggle data c with hw
  unfold ensureWiggle
  rw [hdd, hw, ensureWiggle_key data c]
  simp

theorem ensureWW_idem (data : List (List ℚ)) (c : GraphCache) :
    ensureWW data (ensureWW data c) = ensureWW data c := by
  have hdd : ensureDiff data (ensureWW data c) = ensureWW data c := by
    refine ensureDiff_of_stable data _ ?_
    rw [ensureWW_dataDiff]
    exact ensureDiff_stable data c
  set w := ensureWW data c with hw
  unfold ensureWW
  rw [hdd, hw, ensureWW_key data c]
  simp

/-- Claim C9: running the non-animated update twice in a row with the same
dataset and the same baseline mode yields identical displayed coordinate
sets (and identical cache states) both times: the second run, reading the
wiggle caches the first run left behind, reproduces the first run's output
exactly, for every starting cache state. -/
theorem claimC9_idempotent (mode : BaselineMode) (data : List (List ℚ))
    (c : GraphCache) :
    updateDrawingOnce mode data ((updateDrawingOnce mode data c).2) =
      updateDrawingOnce mode data c := by
  unfold updateDrawingOnce
  split_ifs with h
  · rfl
  · cases mode with
    | zeroBase => rfl
    | themeRiverMode => rfl
    | wiggleMode =>
      simp only [stepCache, baselineAt, ensureWiggle_idem]
    | weightedMode =>
      simp only [stepCache, baselineAt, ensureWW_idem]

end StackedGraph
